import Mathlib

set_option linter.unusedVariables false

/-! # Timeline fan-out and multi-store feed assembly

Shallow embedding of the feed engine of the Big-Data-Analytics social-feed
server.  Store state is modelled explicitly: Cassandra tables are lists of
rows whose scans sort by the table's clustering order
(`created_at DESC, reel_id ASC`, from the schema in `server/db/cassandra.js`),
MongoDB collections are lists of documents, the Neo4j edge set is a list of
ordered pairs guarded by a connectivity flag, and the Redis counter and flag
keys are association lists.  Reel ids (UUIDs) are modelled as naturals and
timestamps as naturals. -/

/-- A row of the Cassandra `reels` table (primary key `reel_id`). -/
structure Reel where
  reel_id : Nat
  user_id : String
  caption : String
  media_url : String
  created_at : Nat
  deriving DecidableEq, Repr

/-- A row of the Cassandra `user_reels` per-author index
(primary key `(user_id, created_at, reel_id)`). -/
structure UserReelRow where
  user_id : String
  reel_id : Nat
  created_at : Nat
  deriving DecidableEq, Repr

/-- A row of the Cassandra `timeline` table
(primary key `(user_id, created_at, reel_id)`, clustering `created_at DESC`). -/
structure TimelineRow where
  user_id : String
  reel_id : Nat
  author_id : String
  created_at : Nat
  deriving DecidableEq, Repr

/-- A document of the MongoDB `follows` collection. -/
structure FollowDoc where
  followerId : String
  followedId : String
  deriving DecidableEq, Repr

/-- A document of the MongoDB `users` collection (profile fields kept to
what the feed engine reads). -/
structure UserDoc where
  id : String
  username : String
  deriving DecidableEq, Repr

/-- A document of the MongoDB `comments` collection; `topLevel` models
`parentCommentId: null`. -/
structure CommentDoc where
  reelId : Nat
  userId : String
  username : String
  text : String
  topLevel : Bool
  created_at : Nat
  deriving DecidableEq, Repr

/-- The multi-store state: Cassandra tables, MongoDB collections, the Neo4j
edge set behind its availability flag, and the Redis like counters and
per-(reel, actor) flags.  `likesLog` is the durable MongoDB `likes`
shadow collection. -/
structure St where
  reels : List Reel
  user_reels : List UserReelRow
  timeline : List TimelineRow
  follows : List FollowDoc
  users : List UserDoc
  comments : List CommentDoc
  neo4jConnected : Bool
  neo4jEdges : List (String × String)
  likeCounts : List (Nat × Int)
  likeFlags : List (Nat × String)
  likesLog : List (Nat × String)
  deriving DecidableEq, Repr

/-- The empty multi-store state. -/
def st0 : St := ⟨[], [], [], [], [], [], false, [], [], [], []⟩

/-! ## Cassandra primitives -/

/-- Clustering comparison of `timeline` rows within a partition:
`created_at DESC`, ties `reel_id ASC` (the default ascending clustering of
the last key column). -/
def tlLe (a b : TimelineRow) : Prop :=
  b.created_at < a.created_at ∨ (a.created_at = b.created_at ∧ a.reel_id ≤ b.reel_id)

/-- Strict version of `tlLe`. -/
def tlLt (a b : TimelineRow) : Prop :=
  b.created_at < a.created_at ∨ (a.created_at = b.created_at ∧ a.reel_id < b.reel_id)

instance : DecidableRel tlLe := fun a b => by unfold tlLe; exact inferInstance

instance : DecidableRel tlLt := fun a b => by unfold tlLt; exact inferInstance

instance : IsTotal TimelineRow tlLe :=
  ⟨fun a b => by simp only [tlLe]; omega⟩

instance : IsTrans TimelineRow tlLe :=
  ⟨fun a b c h1 h2 => by simp only [tlLe] at h1 h2 ⊢; omega⟩

/-- Clustering comparison of `user_reels` rows: `created_at DESC`,
ties `reel_id ASC`. -/
def urLe (a b : UserReelRow) : Prop :=
  b.created_at < a.created_at ∨ (a.created_at = b.created_at ∧ a.reel_id ≤ b.reel_id)

instance : DecidableRel urLe := fun a b => by unfold urLe; exact inferInstance

instance : IsTotal UserReelRow urLe :=
  ⟨fun a b => by simp only [urLe]; omega⟩

instance : IsTrans UserReelRow urLe :=
  ⟨fun a b c h1 h2 => by simp only [urLe] at h1 h2 ⊢; omega⟩

/-- Primary key of a `timeline` row. -/
def timelineKey (r : TimelineRow) : String × Nat × Nat :=
  (r.user_id, r.created_at, r.reel_id)

/-- `INSERT INTO timeline`: a Cassandra insert is an upsert on the primary
key, so a row with the same key is replaced and a duplicate-key collision is
invisible to the caller. -/
def timelineInsert (row : TimelineRow) (tl : List TimelineRow) : List TimelineRow :=
  tl.filter (fun r => ! decide (timelineKey r = timelineKey row)) ++ [row]

/-- `SELECT ... FROM timeline WHERE user_id = ? ORDER BY created_at DESC
LIMIT ?`: the partition in clustering order, truncated. -/
def timelineScan (st : St) (owner : String) (limit : Nat) : List TimelineRow :=
  (List.insertionSort tlLe (st.timeline.filter (fun r => decide (r.user_id = owner)))).take limit

/-- Primary key of a `user_reels` row. -/
def userReelsKey (r : UserReelRow) : String × Nat × Nat :=
  (r.user_id, r.created_at, r.reel_id)

/-- `INSERT INTO user_reels` (upsert on the primary key). -/
def userReelsInsert (row : UserReelRow) (t : List UserReelRow) : List UserReelRow :=
  t.filter (fun r => ! decide (userReelsKey r = userReelsKey row)) ++ [row]

/-- Scan of the per-author index over an explicit table value. -/
def scanUserReels (t : List UserReelRow) (u : String) (limit : Nat) : List UserReelRow :=
  (List.insertionSort urLe (t.filter (fun r => decide (r.user_id = u)))).take limit

/-- `SELECT ... FROM user_reels WHERE user_id = ? ORDER BY created_at DESC
LIMIT ?`. -/
def userReelsScan (st : St) (u : String) (limit : Nat) : List UserReelRow :=
  scanUserReels st.user_reels u limit

/-- `INSERT INTO reels` (upsert on `reel_id`). -/
def reelsInsert (row : Reel) (t : List Reel) : List Reel :=
  t.filter (fun r => ! decide (r.reel_id = row.reel_id)) ++ [row]

/-- `SELECT * FROM reels WHERE reel_id = ?`. -/
def reelsFind (st : St) (rid : Nat) : Option Reel :=
  st.reels.find? (fun r => decide (r.reel_id = rid))

/-! ## MongoDB and Neo4j primitives -/

/-- `follows.find({followerId: u})`, projected to the followed ids. -/
def mongoFollowing (st : St) (u : String) : List String :=
  (st.follows.filter (fun f => decide (f.followerId = u))).map (·.followedId)

/-- `follows.find({followedId: u})`, projected to the follower ids. -/
def mongoFollowers (st : St) (u : String) : List String :=
  (st.follows.filter (fun f => decide (f.followedId = u))).map (·.followerId)

/-- Neo4j `MATCH (u {id})<-[:FOLLOWS]-(follower) RETURN follower.id`. -/
def neo4jFollowers (st : St) (u : String) : List String :=
  (st.neo4jEdges.filter (fun e => decide (e.2 = u))).map (·.1)

/-- Neo4j `MERGE` of a follow edge: idempotent edge insertion. -/
def neo4jMergeEdge (e : String × String) (es : List (String × String)) :
    List (String × String) :=
  if e ∈ es then es else es ++ [e]

/-- `follows.updateOne({followerId, followedId}, {$set: ...}, {upsert: true})`:
at most one document per ordered pair. -/
def followsUpsert (f g : String) (l : List FollowDoc) : List FollowDoc :=
  if l.any (fun d => decide (d.followerId = f ∧ d.followedId = g)) then l
  else l ++ [⟨f, g⟩]

/-- MongoDB's `username || 'unknown'` display fallback. -/
def displayName (s : String) : String := if s = "" then "unknown" else s

/-! ## Redis primitives -/

/-- Value of a like counter key, 0 when the key is absent (the routes parse
the stored string with a 0 default). -/
def getCountVal (l : List (Nat × Int)) (p : Nat) : Int :=
  ((l.find? (fun kv => decide (kv.1 = p))).map (·.2)).getD 0

/-- `redis.get('likes:reelId')` as an integer. -/
def getCountInt (st : St) (p : Nat) : Int := getCountVal st.likeCounts p

/-- `redis.set` of a counter key. -/
def setCount (p : Nat) (v : Int) : List (Nat × Int) → List (Nat × Int)
  | [] => [(p, v)]
  | kv :: rest => if kv.1 = p then (p, v) :: rest else kv :: setCount p v rest

/-- Presence of the per-(reel, actor) idempotency key `like:reelId:userId`. -/
def hasFlag (st : St) (p : Nat) (a : String) : Bool :=
  st.likeFlags.any (fun f => decide (f = (p, a)))

/-! ## Feed assembly (`GET /api/reels/feed`) -/

/-- An element of the ordered post-reference list the assembler hands to
enrichment. -/
structure FeedRef where
  reelId : Nat
  authorId : String
  createdAt : Nat
  deriving DecidableEq, Repr

/-- Strict feed order: timestamp descending, ties by post id ascending. -/
def refLt (a b : FeedRef) : Prop :=
  b.createdAt < a.createdAt ∨ (a.createdAt = b.createdAt ∧ a.reelId < b.reelId)

instance : DecidableRel refLt := fun a b => by unfold refLt; exact inferInstance

/-- Reference taken from a timeline row. -/
def feedRefOfRow (r : TimelineRow) : FeedRef := ⟨r.reel_id, r.author_id, r.created_at⟩

/-- The read-repair merge loop of the empty-partition branch: for each
followed user, read their per-author index (top 20 recent) and insert each
entry into the owner's timeline partition, duplicates ignored. -/
def repairMerge (st : St) (owner : String) (followedIds : List String) : St :=
  followedIds.foldl (fun acc fid =>
    (userReelsScan acc fid 20).foldl
      (fun acc2 row =>
        { acc2 with timeline := timelineInsert ⟨owner, row.reel_id, fid, row.created_at⟩ acc2.timeline })
      acc) st

/-- The assembly phase of `GET /api/reels/feed`: read the owner's timeline
partition limited to `limit`; if empty, read-repair from the MongoDB follows
(re-reading the partition afterwards) or, with no follows, fall back to the
owner's own per-author index. -/
def getFeedAssemble (st : St) (userId : String) (limit : Nat) : List FeedRef × St :=
  let initial := timelineScan st userId limit
  if initial.isEmpty then
    let followedIds := mongoFollowing st userId
    if followedIds.isEmpty then
      ((userReelsScan st userId limit).map (fun r => ⟨r.reel_id, userId, r.created_at⟩), st)
    else
      let st2 := repairMerge st userId followedIds
      ((timelineScan st2 userId limit).map feedRefOfRow, st2)
  else
    (initial.map feedRefOfRow, st)

/-! ## Feed enrichment join -/

/-- A comment as rendered in the feed page. -/
structure CommentView where
  userId : String
  username : String
  text : String
  createdAt : Nat
  deriving DecidableEq, Repr

/-- An enriched feed entry. -/
structure EnrichedReel where
  id : Nat
  mediaUrl : String
  caption : String
  authorId : String
  authorName : String
  likesCount : Int
  comments : List CommentView
  createdAt : Nat
  deriving DecidableEq, Repr, Inhabited

/-- MongoDB comment preview order: `createdAt` descending. -/
def cmLe (a b : CommentDoc) : Prop := b.created_at ≤ a.created_at

instance : DecidableRel cmLe := fun a b => by unfold cmLe; exact inferInstance

instance : IsTotal CommentDoc cmLe := ⟨fun a b => Nat.le_total b.created_at a.created_at⟩

instance : IsTrans CommentDoc cmLe :=
  ⟨fun a b c h1 h2 => by simp only [cmLe] at h1 h2 ⊢; omega⟩

/-- Enrichment of one reference: resolve the post body (dropping the
reference when the post is gone), the author profile with an `unknown`
fallback, the Redis like count, and a three-comment top-level preview. -/
def enrichOne (st : St) (r : FeedRef) : Option EnrichedReel :=
  match reelsFind st r.reelId with
  | none => none
  | some reel =>
    let authorName :=
      match st.users.find? (fun u => decide (u.id = r.authorId)) with
      | some u => displayName u.username
      | none => "unknown"
    let cs := (List.insertionSort cmLe
        (st.comments.filter (fun c => decide (c.reelId = r.reelId) && c.topLevel))).take 3
    some { id := r.reelId
           mediaUrl := reel.media_url
           caption := reel.caption
           authorId := r.authorId
           authorName := authorName
           likesCount := getCountInt st r.reelId
           comments := cs.map (fun c => ⟨c.userId, displayName c.username, c.text, c.created_at⟩)
           createdAt := reel.created_at }

/-- `Promise.all` over the references followed by `filter(Boolean)`: the
results keep the input order and unresolvable references are dropped. -/
def enrich (st : St) (refs : List FeedRef) : List EnrichedReel :=
  refs.filterMap (enrichOne st)

/-- Total variant of `enrichOne`, used to state order preservation. -/
def enrichResolved (st : St) (r : FeedRef) : EnrichedReel :=
  (enrichOne st r).getD default

/-- The whole `GET /api/reels/feed` route: validate `userId`, assemble, and
answer an explicit empty page (never an error) when nothing was found. -/
def getFeedRoute (st : St) (userId : String) (limit : Nat) :
    Except String (List EnrichedReel) × St :=
  if userId = "" then (.error "userId is required", st)
  else
    let res := getFeedAssemble st userId limit
    if res.1.isEmpty then (.ok [], res.2)
    else (.ok (enrich res.2 res.1), res.2)

/-! ## Post creation and fan-out (`POST /api/reels`) -/

/-- Follower resolution of the fan-out writer: Neo4j when connected, with a
MongoDB fallback when Neo4j is unavailable or returned no followers. -/
def followersOfAuthor (st : St) (userId : String) : List String :=
  let nf := if st.neo4jConnected then neo4jFollowers st userId else []
  if nf.isEmpty then mongoFollowers st userId else nf

/-- The fan-out loop: append the new timeline entry to each follower's
partition, duplicate keys swallowed. -/
def fanOut (st : St) (followers : List String) (reelId : Nat) (authorId : String)
    (now : Nat) : St :=
  followers.foldl (fun acc f =>
    { acc with timeline := timelineInsert ⟨f, reelId, authorId, now⟩ acc.timeline }) st

/-- `POST /api/reels`: validate, persist the post, append to the author's
per-author index, fan out to every follower's timeline partition, and
initialise the Redis like counter to zero.  The fresh reel id and the
timestamp are passed explicitly. -/
def createPost (st : St) (userId caption mediaUrl : String) (reelId : Nat)
    (now : Nat) : Except String Nat × St :=
  if userId = "" ∨ mediaUrl = "" then (.error "userId and mediaUrl are required", st)
  else
    let st1 := { st with reels := reelsInsert ⟨reelId, userId, caption, mediaUrl, now⟩ st.reels }
    let st2 := { st1 with user_reels := userReelsInsert ⟨userId, reelId, now⟩ st1.user_reels }
    let followers := followersOfAuthor st2 userId
    let st3 := fanOut st2 followers reelId userId now
    let st4 := { st3 with likeCounts := setCount reelId 0 st3.likeCounts }
    (.ok reelId, st4)

/-! ## Follow graph routes (`users.js`) -/

/-- `POST /api/users/:userId/follow`: reject missing follower and
self-follow before touching any store, merge the edge into Neo4j when
available, upsert the MongoDB replica, then backfill the follower's
timeline with the followed user's 50 most recent reels. -/
def followOp (st : St) (userId followerId : String) : Except String Unit × St :=
  if followerId = "" then (.error "followerId is required", st)
  else if userId = followerId then (.error "Cannot follow yourself", st)
  else
    let st1 := if st.neo4jConnected then
        { st with neo4jEdges := neo4jMergeEdge (followerId, userId) st.neo4jEdges }
      else st
    let st2 := { st1 with follows := followsUpsert followerId userId st1.follows }
    let st3 := (userReelsScan st2 userId 50).foldl
      (fun acc row =>
        { acc with timeline := timelineInsert ⟨followerId, row.reel_id, userId, row.created_at⟩ acc.timeline })
      st2
    (.ok (), st3)

/-- `DELETE /api/users/:userId/follow`: delete the edge from Neo4j when
available and from the MongoDB replica; the timeline is deliberately left
untouched. -/
def unfollowOp (st : St) (userId followerId : String) : Except String Unit × St :=
  if followerId = "" then (.error "followerId is required", st)
  else
    let st1 := if st.neo4jConnected then
        { st with neo4jEdges := st.neo4jEdges.filter (fun e => ! decide (e = (followerId, userId))) }
      else st
    let st2 := { st1 with
      follows := st1.follows.eraseP (fun d => decide (d.followerId = followerId ∧ d.followedId = userId)) }
    (.ok (), st2)

/-- `GET /api/users/:userId/followers`: computed from the MongoDB replica
(the route never consults Neo4j), joined against the `users` collection. -/
def followersOp (st : St) (userId : String) : List (String × String) :=
  let followerIds := mongoFollowers st userId
  if followerIds.isEmpty then []
  else (st.users.filter (fun u => decide (u.id ∈ followerIds))).map
    (fun u => (u.id, displayName u.username))

/-- `GET /api/users/:userId/following`: same shape as `followersOp`. -/
def followingOp (st : St) (userId : String) : List (String × String) :=
  let followedIds := mongoFollowing st userId
  if followedIds.isEmpty then []
  else (st.users.filter (fun u => decide (u.id ∈ followedIds))).map
    (fun u => (u.id, displayName u.username))

/-- The followers operation as clause 4.1 of the specification words it:
prefer the accelerated graph backend when it is available, otherwise scan
the durable replica.  Declared only to compare with the implementation. -/
def followersPreferAccel (st : St) (u : String) : List String :=
  if st.neo4jConnected then neo4jFollowers st u else mongoFollowers st u

/-! ## Friend suggestions (`GET /api/users/:userId/suggestions`) -/

/-- `suggestionCounts[id] = (suggestionCounts[id] || 0) + 1` over a JS
object: bump in place, new keys appended (first-occurrence order). -/
def bump (l : List (String × Nat)) (k : String) : List (String × Nat) :=
  match l with
  | [] => [(k, 1)]
  | kv :: rest => if kv.1 = k then (kv.1, kv.2 + 1) :: rest else kv :: bump rest k

/-- The per-target occurrence count accumulation of the MongoDB fallback,
skipping the caller and already-followed users. -/
def suggestCounts (edges : List FollowDoc) (userId : String)
    (followingIds : List String) : List (String × Nat) :=
  edges.foldl (fun acc f =>
    if f.followedId ≠ userId ∧ f.followedId ∉ followingIds then
      bump acc f.followedId
    else acc) []

/-- Suggestion ranking order: mutual-connection count descending. -/
def sugGe (a b : String × Nat) : Prop := b.2 ≤ a.2

instance : DecidableRel sugGe := fun a b => by unfold sugGe; exact inferInstance

instance : IsTotal (String × Nat) sugGe := ⟨fun a b => Nat.le_total b.2 a.2⟩

instance : IsTrans (String × Nat) sugGe :=
  ⟨fun a b c h1 h2 => by simp only [sugGe] at h1 h2 ⊢; omega⟩

/-- The MongoDB fallback aggregation: collect the caller's followed set,
collect the edges leaving it, count per target (excluding self and the
followed set), rank by count descending (stable, as JS `sort`), truncate. -/
def suggestMongo (st : St) (userId : String) (limit : Nat) : List (String × Nat) :=
  let followingIds := mongoFollowing st userId
  if followingIds.isEmpty then []
  else
    let friendsFollows := st.follows.filter (fun f => decide (f.followerId ∈ followingIds))
    (List.insertionSort sugGe (suggestCounts friendsFollows userId followingIds)).take limit

/-- The Neo4j two-hop traversal: count, per candidate followed by a followed
user but not by the caller and distinct from the caller, the connecting
followed users; rank descending, truncate. -/
def suggestNeo (st : St) (userId : String) (limit : Nat) : List (String × Nat) :=
  let paths := st.neo4jEdges.filter (fun e =>
    decide ((userId, e.1) ∈ st.neo4jEdges)
    && ! decide (e.2 = userId)
    && ! decide ((userId, e.2) ∈ st.neo4jEdges))
  (List.insertionSort sugGe (paths.foldl (fun acc e => bump acc e.2) [])).take limit

/-- The whole suggestions route: Neo4j first when connected, MongoDB
fallback when Neo4j is unavailable or produced nothing. -/
def suggestOp (st : St) (userId : String) (limit : Nat) : List (String × Nat) :=
  let neoRes := if st.neo4jConnected then suggestNeo st userId limit else []
  if neoRes.isEmpty then suggestMongo st userId limit else neoRes

/-! ## Counter cache (`likes.js`) -/

/-- A like/unlike response: the count is absent on the already-liked and
not-liked no-op paths. -/
structure LikeResp where
  likesCount : Option Int
  liked : Bool
  deriving DecidableEq, Repr

/-- `POST /api/likes/:reelId`: flag-guarded increment with a non-blocking
shadow-log append. -/
def likeOp (st : St) (reelId : Nat) (userId : String) : Except String LikeResp × St :=
  if userId = "" then (.error "userId is required", st)
  else if hasFlag st reelId userId then (.ok ⟨none, true⟩, st)
  else
    let newCount := getCountInt st reelId + 1
    let st1 := { st with
      likeCounts := setCount reelId newCount st.likeCounts
      likeFlags := (reelId, userId) :: st.likeFlags
      likesLog := (reelId, userId) :: st.likesLog }
    (.ok ⟨some newCount, true⟩, st1)

/-- `DELETE /api/likes/:reelId`: flag-guarded decrement (the response is
clamped at zero) with a non-blocking shadow-log delete. -/
def unlikeOp (st : St) (reelId : Nat) (userId : String) : Except String LikeResp × St :=
  if userId = "" then (.error "userId is required", st)
  else if ! hasFlag st reelId userId then (.ok ⟨none, false⟩, st)
  else
    let newCount := getCountInt st reelId - 1
    let st1 := { st with
      likeCounts := setCount reelId newCount st.likeCounts
      likeFlags := st.likeFlags.filter (fun f => ! decide (f = (reelId, userId)))
      likesLog := st.likesLog.eraseP (fun f => decide (f = (reelId, userId))) }
    (.ok ⟨some (max 0 newCount), false⟩, st1)

/-- `GET /api/likes/:reelId`: the stored counter value, 0 when absent. -/
def getCountOp (st : St) (reelId : Nat) : Int := getCountInt st reelId

/-- State left by `likeOp` (its errors leave the state unchanged). -/
def likeState (st : St) (p : Nat) (a : String) : St := (likeOp st p a).2

/-- State left by `unlikeOp`. -/
def unlikeState (st : St) (p : Nat) (a : String) : St := (unlikeOp st p a).2

/-! ## Well-formedness -/

/-- Key uniqueness of the `timeline` table (Cassandra stores one row per
primary key). -/
def TimelineWF (tl : List TimelineRow) : Prop := (tl.map timelineKey).Nodup

/-- Key uniqueness of the MongoDB `follows` collection (enforced by the
upsert on the ordered pair). -/
def FollowsWF (l : List FollowDoc) : Prop :=
  (l.map (fun d => (d.followerId, d.followedId))).Nodup

instance : ∀ tl, Decidable (TimelineWF tl) := fun tl => by
  unfold TimelineWF
  exact inferInstance

instance : ∀ l, Decidable (FollowsWF l) := fun l => by
  unfold FollowsWF
  exact inferInstance

/-- Counter-cache soundness: each post's counter dominates the number of
live per-actor flags for it.  It holds in the empty state and is preserved
by every like and unlike. -/
def LikesWF (st : St) : Prop :=
  ∀ p : Nat, ((st.likeFlags.countP (fun f => decide (f.1 = p)) : Int)) ≤ getCountInt st p

/-! ## Counter-cache lemmas -/

theorem find?_setCount_self (l : List (Nat × Int)) (p : Nat) (v : Int) :
    (setCount p v l).find? (fun kv => decide (kv.1 = p)) = some (p, v) := by
  induction l with
  | nil => simp [setCount]
  | cons kv rest ih =>
    by_cases h : kv.1 = p
    · simp [setCount, h]
    · simpa [setCount, h, List.find?_cons] using ih

theorem find?_setCount_other (l : List (Nat × Int)) (p q : Nat) (v : Int)
    (hpq : q ≠ p) :
    (setCount p v l).find? (fun kv => decide (kv.1 = q))
      = l.find? (fun kv => decide (kv.1 = q)) := by
  induction l with
  | nil => simp [setCount, hpq.symm]
  | cons kv rest ih =>
    by_cases h : kv.1 = p
    · simp [setCount, h, hpq, hpq.symm, List.find?_cons]
    · by_cases hq : kv.1 = q
      · simp [setCount, h, hq, hpq, hpq.symm, List.find?_cons]
      · simpa [setCount, h, hq, hpq, hpq.symm, List.find?_cons] using ih

theorem getCountVal_setCount_self (l : List (Nat × Int)) (p : Nat) (v : Int) :
    getCountVal (setCount p v l) p = v := by
  simp [getCountVal, find?_setCount_self]

theorem getCountVal_setCount_other (l : List (Nat × Int)) (p q : Nat) (v : Int)
    (hpq : q ≠ p) : getCountVal (setCount p v l) q = getCountVal l q := by
  simp [getCountVal, find?_setCount_other l p q v hpq]

theorem hasFlag_iff_mem (st : St) (p : Nat) (a : String) :
    hasFlag st p a = true ↔ (p, a) ∈ st.likeFlags := by
  simp [hasFlag, List.any_eq_true]

theorem countP_sub {α : Type} (l : List α) (a b : α → Bool)
    (himp : ∀ x ∈ l, b x = true → a x = true) :
    l.countP (fun x => a x && ! b x) + l.countP b = l.countP a := by
  induction l with
  | nil => simp
  | cons x rest ih =>
    have hx := himp x (by simp)
    have ihr := ih (fun y hy hb => himp y (by simp [hy]) hb)
    cases hb : b x with
    | true =>
      have ha := hx hb
      simp [List.countP_cons, hb, ha]
      omega
    | false =>
      cases ha : a x with
      | true =>
        simp [List.countP_cons, hb, ha]
        omega
      | false =>
        simp [List.countP_cons, hb, ha]
        omega

theorem countP_filter_flag (flags : List (Nat × String)) (p : Nat) (a : String) :
    (flags.filter (fun f => ! decide (f = (p, a)))).countP (fun f => decide (f.1 = p))
      + flags.countP (fun f => decide (f = (p, a)))
    = flags.countP (fun f => decide (f.1 = p)) := by
  rw [List.countP_filter]
  exact countP_sub flags (fun f => decide (f.1 = p)) (fun f => decide (f = (p, a)))
    (fun x _ hb => by
      have hx : x = (p, a) := by simpa using hb
      simp [hx])

/-- The like counter of the empty state satisfies the cache invariant. -/
theorem likesWF_st0 : LikesWF st0 := by
  intro p
  simp [st0, getCountInt, getCountVal]

/-- `like` preserves the cache invariant. -/
theorem likesWF_like (st : St) (p : Nat) (a : String) (h : LikesWF st) :
    LikesWF (likeState st p a) := by
  unfold likeState likeOp
  by_cases ha : a = ""
  · simpa [ha] using h
  · simp only [ha, if_false]
    by_cases hf : hasFlag st p a
    · simpa [hf] using h
    · simp only [hf, Bool.false_eq_true, if_false]
      intro q
      have hq0 := h q
      simp only [getCountInt] at hq0 ⊢
      by_cases hq : q = p
      · subst hq
        rw [getCountVal_setCount_self]
        have hc : List.countP (fun f => decide (f.1 = q)) ((q, a) :: st.likeFlags)
            = List.countP (fun f => decide (f.1 = q)) st.likeFlags + 1 := by
          simp [List.countP_cons]
        rw [hc]
        push_cast
        omega
      · rw [getCountVal_setCount_other _ _ _ _ hq]
        have hne : ¬ p = q := fun hh => hq hh.symm
        have hc : List.countP (fun f => decide (f.1 = q)) ((p, a) :: st.likeFlags)
            = List.countP (fun f => decide (f.1 = q)) st.likeFlags := by
          simp [List.countP_cons, hne]
        rw [hc]
        exact hq0

/-- `unlike` preserves the cache invariant. -/
theorem likesWF_unlike (st : St) (p : Nat) (a : String) (h : LikesWF st) :
    LikesWF (unlikeState st p a) := by
  unfold unlikeState unlikeOp
  by_cases ha : a = ""
  · simpa [ha] using h
  · simp only [ha, if_false]
    by_cases hf : hasFlag st p a
    · simp only [hf, Bool.not_true, Bool.false_eq_true, if_false]
      intro q
      have hq0 := h q
      simp only [getCountInt] at hq0 ⊢
      by_cases hq : q = p
      · subst hq
        rw [getCountVal_setCount_self]
        have hmem : (q, a) ∈ st.likeFlags := (hasFlag_iff_mem st q a).1 hf
        have hone : 0 < st.likeFlags.countP (fun f => decide (f = (q, a))) := by
          rw [List.countP_pos_iff]
          exact ⟨(q, a), hmem, by simp⟩
        have hkey := countP_filter_flag st.likeFlags q a
        omega
      · rw [getCountVal_setCount_other _ _ _ _ hq]
        have hsub : (st.likeFlags.filter (fun f => ! decide (f = (p, a)))).countP
            (fun f => decide (f.1 = q)) ≤ st.likeFlags.countP (fun f => decide (f.1 = q)) :=
          (List.filter_sublist _).countP_le _
        omega
    · simpa [hf] using h

/-- Under the cache invariant every counter is non-negative. -/
theorem likesWF_nonneg (st : St) (p : Nat) (h : LikesWF st) : 0 ≤ getCountOp st p := by
  have := h p
  have hc : (0 : Int) ≤ (st.likeFlags.countP (fun f => decide (f.1 = p)) : Int) := by
    positivity
  unfold getCountOp
  omega

/-- The cache invariant survives any sequence of unlike calls. -/
theorem likesWF_unlikeFold (ops : List (Nat × String)) (st : St) (h : LikesWF st) :
    LikesWF (ops.foldl (fun s pa => unlikeState s pa.1 pa.2) st) := by
  induction ops generalizing st with
  | nil => exact h
  | cons op rest ih => exact ih _ (likesWF_unlike st op.1 op.2 h)

/-! ## Branch equations of the like routes -/

theorem likeOp_eq_of_not_flag (st : St) (p : Nat) (a : String) (ha : a ≠ "")
    (hf : hasFlag st p a = false) :
    likeOp st p a = (Except.ok ⟨some (getCountInt st p + 1), true⟩,
      { st with likeCounts := setCount p (getCountInt st p + 1) st.likeCounts
                likeFlags := (p, a) :: st.likeFlags
                likesLog := (p, a) :: st.likesLog }) := by
  unfold likeOp
  simp [ha, hf]

theorem likeOp_eq_of_flag (st : St) (p : Nat) (a : String) (ha : a ≠ "")
    (hf : hasFlag st p a = true) :
    likeOp st p a = (Except.ok ⟨none, true⟩, st) := by
  unfold likeOp
  simp [ha, hf]

theorem unlikeOp_eq_of_flag (st : St) (p : Nat) (a : String) (ha : a ≠ "")
    (hf : hasFlag st p a = true) :
    unlikeOp st p a = (Except.ok ⟨some (max 0 (getCountInt st p - 1)), false⟩,
      { st with likeCounts := setCount p (getCountInt st p - 1) st.likeCounts
                likeFlags := st.likeFlags.filter (fun f => ! decide (f = (p, a)))
                likesLog := st.likesLog.eraseP (fun f => decide (f = (p, a))) }) := by
  unfold unlikeOp
  simp [ha, hf]

theorem one_le_count_of_flag (st : St) (p : Nat) (a : String) (hwf : LikesWF st)
    (hf : hasFlag st p a = true) : 1 ≤ getCountInt st p := by
  have hmem := (hasFlag_iff_mem st p a).1 hf
  have hone : 0 < st.likeFlags.countP (fun f => decide (f = (p, a))) := by
    rw [List.countP_pos_iff]
    exact ⟨(p, a), hmem, by simp⟩
  have hmono : st.likeFlags.countP (fun f => decide (f = (p, a)))
      ≤ st.likeFlags.countP (fun f => decide (f.1 = p)) :=
    List.countP_mono_left (fun x hx hbx => by
      have hx2 : x = (p, a) := by simpa using hbx
      simp [hx2])
  have := hwf p
  omega

/-- State reached by one like in the empty store; used as a concrete case. -/
def stLA : St := likeState st0 1 "a"

/-- Claim C4 as frozen is false on the code: after an actor has liked a post
(current count 1), a second like by the same actor is a no-op but its
response carries no count at all (`message: 'Already liked'`), rather than
returning the current count. -/
theorem claim_C4_counterexample :
    hasFlag stLA 1 "a" = true ∧ getCountOp stLA 1 = 1
      ∧ (likeOp stLA 1 "a").1 = Except.ok ⟨none, true⟩ :=
  ⟨rfl, rfl, rfl⟩

/-- Claim C4 (amended): like is idempotent per actor — when the
per-(post, actor) flag is absent it sets the flag and increments, returning
the new count; when the flag is present the call is a no-op that returns a
liked acknowledgement without a count; hence like twice by the same actor
increments the counter exactly once. -/
theorem claim_C4 (st : St) (p : Nat) (a : String) (ha : a ≠ "") :
    (hasFlag st p a = false →
        likeOp st p a = (Except.ok ⟨some (getCountInt st p + 1), true⟩, likeState st p a)
      ∧ getCountInt (likeState st p a) p = getCountInt st p + 1
      ∧ hasFlag (likeState st p a) p a = true
      ∧ likeState (likeState st p a) p a = likeState st p a
      ∧ (likeOp (likeState st p a) p a).1 = Except.ok ⟨none, true⟩)
    ∧ (hasFlag st p a = true → likeOp st p a = (Except.ok ⟨none, true⟩, st)) := by
  constructor
  · intro hf
    have h1 := likeOp_eq_of_not_flag st p a ha hf
    have hst : likeState st p a
        = { st with likeCounts := setCount p (getCountInt st p + 1) st.likeCounts
                    likeFlags := (p, a) :: st.likeFlags
                    likesLog := (p, a) :: st.likesLog } := by
      unfold likeState
      rw [h1]
    have hcnt : getCountInt (likeState st p a) p = getCountInt st p + 1 := by
      rw [hst]
      simp only [getCountInt]
      exact getCountVal_setCount_self _ _ _
    have hfl : hasFlag (likeState st p a) p a = true := by
      rw [hst]
      simp [hasFlag]
    have h2 := likeOp_eq_of_flag (likeState st p a) p a ha hfl
    refine ⟨by rw [h1, hst], hcnt, hfl, ?_, by rw [h2]⟩
    show (likeOp (likeState st p a) p a).2 = likeState st p a
    rw [h2]
  · intro hf
    exact likeOp_eq_of_flag st p a ha hf

/-- Witness for C4 at a concrete input: first like on a fresh store
increments the counter and sets the flag. -/
theorem claim_C4_witness :
    getCountInt (likeState st0 1 "a") 1 = getCountInt st0 1 + 1
      ∧ hasFlag (likeState st0 1 "a") 1 "a" = true :=
  ⟨((claim_C4 st0 1 "a" (by decide)).1 rfl).2.1,
   ((claim_C4 st0 1 "a" (by decide)).1 rfl).2.2.1⟩

/-- Claim C5: unlike clears the flag if present and decrements without the
counter ever dropping below zero (under the cache invariant, which every
like/unlike preserves); like-then-unlike restores the pre-like count; and
the counter read stays non-negative under any sequence of unlike calls. -/
theorem claim_C5 (st : St) (p : Nat) (a : String) (ops : List (Nat × String))
    (hwf : LikesWF st) :
    (a ≠ "" → hasFlag st p a = true →
        unlikeOp st p a
          = (Except.ok ⟨some (getCountInt st p - 1), false⟩, unlikeState st p a)
      ∧ getCountInt (unlikeState st p a) p = getCountInt st p - 1
      ∧ 0 ≤ getCountInt (unlikeState st p a) p
      ∧ hasFlag (unlikeState st p a) p a = false)
    ∧ (a ≠ "" → hasFlag st p a = false →
        getCountOp (unlikeState (likeState st p a) p a) p = getCountOp st p)
    ∧ LikesWF (unlikeState st p a)
    ∧ 0 ≤ getCountOp (ops.foldl (fun s pa => unlikeState s pa.1 pa.2) st) p := by
  refine ⟨?_, ?_, likesWF_unlike st p a hwf, likesWF_nonneg _ p (likesWF_unlikeFold ops st hwf)⟩
  · intro ha hf
    have hge := one_le_count_of_flag st p a hwf hf
    have hmax : max 0 (getCountInt st p - 1) = getCountInt st p - 1 := by omega
    have h1 := unlikeOp_eq_of_flag st p a ha hf
    rw [hmax] at h1
    have hst : unlikeState st p a
        = { st with likeCounts := setCount p (getCountInt st p - 1) st.likeCounts
                    likeFlags := st.likeFlags.filter (fun f => ! decide (f = (p, a)))
                    likesLog := st.likesLog.eraseP (fun f => decide (f = (p, a))) } := by
      unfold unlikeState
      rw [h1]
    have hcnt : getCountInt (unlikeState st p a) p = getCountInt st p - 1 := by
      rw [hst]
      simp only [getCountInt]
      exact getCountVal_setCount_self _ _ _
    refine ⟨by rw [h1, hst], hcnt, by omega, ?_⟩
    rw [hst]
    simp [hasFlag, List.any_eq_true, List.mem_filter]
  · intro ha hf
    have h1 := likeOp_eq_of_not_flag st p a ha hf
    have hst : likeState st p a
        = { st with likeCounts := setCount p (getCountInt st p + 1) st.likeCounts
                    likeFlags := (p, a) :: st.likeFlags
                    likesLog := (p, a) :: st.likesLog } := by
      unfold likeState
      rw [h1]
    have hcnt1 : getCountInt (likeState st p a) p = getCountInt st p + 1 := by
      rw [hst]
      simp only [getCountInt]
      exact getCountVal_setCount_self _ _ _
    have hfl : hasFlag (likeState st p a) p a = true := by
      rw [hst]
      simp [hasFlag]
    have hwf1 : LikesWF (likeState st p a) := likesWF_like st p a hwf
    have h2 := unlikeOp_eq_of_flag (likeState st p a) p a ha hfl
    have hst2 : unlikeState (likeState st p a) p a
        = { (likeState st p a) with
            likeCounts := setCount p (getCountInt (likeState st p a) p - 1)
              (likeState st p a).likeCounts
            likeFlags := (likeState st p a).likeFlags.filter
              (fun f => ! decide (f = (p, a)))
            likesLog := (likeState st p a).likesLog.eraseP
              (fun f => decide (f = (p, a))) } := by
      unfold unlikeState
      rw [h2]
    have : getCountInt (unlikeState (likeState st p a) p a) p
        = getCountInt (likeState st p a) p - 1 := by
      rw [hst2]
      simp only [getCountInt]
      exact getCountVal_setCount_self _ _ _
    unfold getCountOp
    rw [this, hcnt1]
    omega

/-- State reached by one like of post 2 by actor `b` in the empty store. -/
def stW5 : St := likeState st0 2 "b"

/-- Witness for C5 at a concrete input: unliking after a like keeps the
counter at zero or above and clears the flag. -/
theorem claim_C5_witness :
    0 ≤ getCountInt (unlikeState stW5 2 "b") 2
      ∧ hasFlag (unlikeState stW5 2 "b") 2 "b" = false := by
  have hwf : LikesWF stW5 := likesWF_like st0 2 "b" likesWF_st0
  have h := (claim_C5 stW5 2 "b" [] hwf).1 (by decide) (by rfl)
  exact ⟨h.2.2.1, h.2.2.2⟩

/-! ## Claim C9: synchronous validation -/

/-- Claim C9: invalid input — a self-follow or missing follower id, missing
post fields, and the missing-id checks of the feed/like routes — is rejected
synchronously with a validation error before any store is written, leaving
the state unchanged, and these are the only error results the core
operations produce. -/
theorem claim_C9 (st : St) (userId followerId postUser caption mediaUrl : String)
    (rid now limit p : Nat) (actor : String) :
    ((∃ e, (followOp st userId followerId).1 = Except.error e)
        ↔ (followerId = "" ∨ userId = followerId))
    ∧ (followerId = "" ∨ userId = followerId → (followOp st userId followerId).2 = st)
    ∧ ((∃ e, (createPost st postUser caption mediaUrl rid now).1 = Except.error e)
        ↔ (postUser = "" ∨ mediaUrl = ""))
    ∧ (postUser = "" ∨ mediaUrl = "" →
        (createPost st postUser caption mediaUrl rid now).2 = st)
    ∧ ((∃ e, (getFeedRoute st userId limit).1 = Except.error e) ↔ userId = "")
    ∧ (userId = "" → (getFeedRoute st userId limit).2 = st)
    ∧ ((∃ e, (likeOp st p actor).1 = Except.error e) ↔ actor = "")
    ∧ (actor = "" → (likeOp st p actor).2 = st)
    ∧ ((∃ e, (unlikeOp st p actor).1 = Except.error e) ↔ actor = "")
    ∧ (actor = "" → (unlikeOp st p actor).2 = st) := by
  refine ⟨?_, ?_, ?_, ?_, ?_, ?_, ?_, ?_, ?_, ?_⟩
  · by_cases h1 : followerId = ""
    · simp [followOp, h1]
    · by_cases h2 : userId = followerId
      · simp [followOp, h1, h2]
      · simp [followOp, h1, h2]
  · intro h
    rcases h with h | h
    · simp [followOp, h]
    · by_cases h1 : followerId = ""
      · simp [followOp, h1]
      · simp [followOp, h1, h]
  · by_cases h : postUser = "" ∨ mediaUrl = ""
    · simp [createPost, h]
    · simp [createPost, h]
  · intro h
    simp [createPost, h]
  · by_cases h : userId = ""
    · simp [getFeedRoute, h]
    · by_cases h2 : (getFeedAssemble st userId limit).1.isEmpty
      · simp [getFeedRoute, h, h2]
      · simp [getFeedRoute, h, h2]
  · intro h
    simp [getFeedRoute, h]
  · by_cases h : actor = ""
    · simp [likeOp, h]
    · by_cases h2 : hasFlag st p actor
      · simp [likeOp, h, h2]
      · simp [likeOp, h, h2]
  · intro h
    simp [likeOp, h]
  · by_cases h : actor = ""
    · simp [unlikeOp, h]
    · by_cases h2 : hasFlag st p actor
      · simp [unlikeOp, h, h2]
      · simp [unlikeOp, h, h2]
  · intro h
    simp [unlikeOp, h]

/-- Witness for C9 at a concrete input: a self-follow is rejected and the
stores are untouched. -/
theorem claim_C9_witness :
    (∃ e, (followOp st0 "u" "u").1 = Except.error e) ∧ (followOp st0 "u" "u").2 = st0 := by
  have h := claim_C9 st0 "u" "u" "x" "c" "m" 1 2 10 3 "a"
  exact ⟨h.1.mpr (Or.inr rfl), h.2.1 (Or.inr rfl)⟩

/-! ## Claim C10: unfollow leaves the timeline untouched -/

theorem eraseP_no_match (l : List FollowDoc) (f g : String)
    (hwf : FollowsWF l) :
    ∀ d ∈ l.eraseP (fun d => decide (d.followerId = f ∧ d.followedId = g)),
      ¬ (d.followerId = f ∧ d.followedId = g) := by
  induction l with
  | nil => simp
  | cons x rest ih =>
    have hwf' : FollowsWF rest ∧ (x.followerId, x.followedId)
        ∉ rest.map (fun d => (d.followerId, d.followedId)) := by
      unfold FollowsWF at hwf ⊢
      rw [List.map_cons, List.nodup_cons] at hwf
      exact ⟨hwf.2, hwf.1⟩
    by_cases hx : x.followerId = f ∧ x.followedId = g
    · rw [List.eraseP_cons_of_pos (by simpa using hx)]
      intro d hd hcontra
      apply hwf'.2
      rw [List.mem_map]
      exact ⟨d, hd, by rw [hcontra.1, hcontra.2, hx.1, hx.2]⟩
    · rw [List.eraseP_cons_of_neg (by simpa using hx)]
      intro d hd
      rcases List.mem_cons.1 hd with hdx | hdr
      · rw [hdx]; exact hx
      · exact ih hwf'.1 d hdr

/-- Claim C10: unfollow removes the edge from the Neo4j backend (when it is
up) and from the MongoDB replica, but leaves every timeline partition — and
both post stores — unchanged, so entries previously fanned out or backfilled
from the unfollowed user still appear in the follower's feed reads. -/
theorem claim_C10 (st : St) (userId followerId : String)
    (hv : followerId ≠ "") (hwf : FollowsWF st.follows) :
    (unfollowOp st userId followerId).1 = Except.ok ()
    ∧ (unfollowOp st userId followerId).2.timeline = st.timeline
    ∧ (unfollowOp st userId followerId).2.user_reels = st.user_reels
    ∧ (unfollowOp st userId followerId).2.reels = st.reels
    ∧ (st.neo4jConnected = true →
        (followerId, userId) ∉ (unfollowOp st userId followerId).2.neo4jEdges)
    ∧ (¬ ∃ d ∈ (unfollowOp st userId followerId).2.follows,
        d.followerId = followerId ∧ d.followedId = userId)
    ∧ (∀ owner limit, timelineScan ((unfollowOp st userId followerId).2) owner limit
        = timelineScan st owner limit) := by
  by_cases hn : st.neo4jConnected
  · have hstep : unfollowOp st userId followerId
        = (Except.ok (), { st with
            neo4jEdges := st.neo4jEdges.filter (fun e => ! decide (e = (followerId, userId)))
            follows := st.follows.eraseP
              (fun d => decide (d.followerId = followerId ∧ d.followedId = userId)) }) := by
      unfold unfollowOp
      simp [hv, hn]
    rw [hstep]
    refine ⟨rfl, rfl, rfl, rfl, ?_, ?_, ?_⟩
    · intro _ hmem
      rw [List.mem_filter] at hmem
      simp at hmem
    · rintro ⟨d, hd, hmatch⟩
      exact eraseP_no_match st.follows followerId userId hwf d hd hmatch
    · intro owner limit
      unfold timelineScan
      rfl
  · have hstep : unfollowOp st userId followerId
        = (Except.ok (), { st with
            follows := st.follows.eraseP
              (fun d => decide (d.followerId = followerId ∧ d.followedId = userId)) }) := by
      unfold unfollowOp
      simp [hv, hn]
    rw [hstep]
    refine ⟨rfl, rfl, rfl, rfl, ?_, ?_, ?_⟩
    · intro hcon
      rw [hcon] at hn
      exact absurd rfl hn
    · rintro ⟨d, hd, hmatch⟩
      exact eraseP_no_match st.follows followerId userId hwf d hd hmatch
    · intro owner limit
      unfold timelineScan
      rfl

/-- Concrete state for C10: one follow edge in both backends and one
previously fanned-out timeline entry. -/
def stC10 : St :=
  { st0 with
    follows := [⟨"f", "g"⟩]
    neo4jConnected := true
    neo4jEdges := [("f", "g")]
    timeline := [⟨"f", 5, "g", 3⟩] }

/-- Witness for C10 at a concrete input. -/
theorem claim_C10_witness :
    (unfollowOp stC10 "g" "f").2.timeline = stC10.timeline
    ∧ ("f", "g") ∉ (unfollowOp stC10 "g" "f").2.neo4jEdges
    ∧ (¬ ∃ d ∈ (unfollowOp stC10 "g" "f").2.follows,
        d.followerId = "f" ∧ d.followedId = "g") := by
  have h := claim_C10 stC10 "g" "f" (by decide) (by decide)
  exact ⟨h.2.1, h.2.2.2.2.1 rfl, h.2.2.2.2.2.1⟩

/-! ## Claim C6: followers/following read only the durable replica -/

theorem mem_mongoFollowers (st : St) (u x : String) :
    x ∈ mongoFollowers st u ↔ ∃ d ∈ st.follows, d.followedId = u ∧ d.followerId = x := by
  simp only [mongoFollowers, List.mem_map, List.mem_filter, decide_eq_true_eq]
  constructor
  · rintro ⟨d, ⟨hd, hfd⟩, hfr⟩
    exact ⟨d, hd, hfd, hfr⟩
  · rintro ⟨d, hd, hfd, hfr⟩
    exact ⟨d, ⟨hd, hfd⟩, hfr⟩

theorem mem_mongoFollowing (st : St) (u x : String) :
    x ∈ mongoFollowing st u ↔ ∃ d ∈ st.follows, d.followerId = u ∧ d.followedId = x := by
  simp only [mongoFollowing, List.mem_map, List.mem_filter, decide_eq_true_eq]
  constructor
  · rintro ⟨d, ⟨hd, hfd⟩, hfr⟩
    exact ⟨d, hd, hfd, hfr⟩
  · rintro ⟨d, hd, hfd, hfr⟩
    exact ⟨d, ⟨hd, hfd⟩, hfr⟩

/-- Concrete state for C6: the accelerated backend is connected and holds
the edge a→b, while the durable replica holds nothing. -/
def stC6 : St :=
  { st0 with
    neo4jConnected := true
    neo4jEdges := [("a", "b")]
    users := [⟨"a", "alice"⟩, ⟨"b", "bob"⟩] }

/-- Claim C6 as frozen is false on the code: with the accelerated backend
available and holding an edge, the spec-worded backend-preferring read
returns the follower, but the followers route reads only the MongoDB
replica and returns nothing — the operations never prefer the accelerated
backend. -/
theorem claim_C6_counterexample :
    stC6.neo4jConnected = true
    ∧ followersPreferAccel stC6 "b" = ["a"]
    ∧ neo4jFollowers stC6 "b" = ["a"]
    ∧ followersOp stC6 "b" = [] :=
  ⟨rfl, rfl, rfl, rfl⟩

/-- Claim C6 (amended): the followers/following routes always compute from
the durable MongoDB replica by linear scan and filter, regardless of the
accelerated backend's availability or contents; consequently their results
with the backend disabled are identical to the backend-enabled case. -/
theorem claim_C6 (st : St) (userId : String) (b : Bool) (e : List (String × String)) :
    followersOp { st with neo4jConnected := b, neo4jEdges := e } userId
      = followersOp st userId
    ∧ followingOp { st with neo4jConnected := b, neo4jEdges := e } userId
      = followingOp st userId
    ∧ (∀ pr, pr ∈ followersOp st userId ↔ ∃ u ∈ st.users,
        (∃ d ∈ st.follows, d.followedId = userId ∧ d.followerId = u.id)
        ∧ pr = (u.id, displayName u.username))
    ∧ (∀ pr, pr ∈ followingOp st userId ↔ ∃ u ∈ st.users,
        (∃ d ∈ st.follows, d.followerId = userId ∧ d.followedId = u.id)
        ∧ pr = (u.id, displayName u.username)) := by
  refine ⟨rfl, rfl, ?_, ?_⟩
  · intro pr
    by_cases hemp : (mongoFollowers st userId).isEmpty
    · rw [List.isEmpty_iff] at hemp
      constructor
      · intro hpr
        rw [followersOp] at hpr
        simp [hemp] at hpr
      · rintro ⟨u, hu, ⟨d, hd, hfd, hfr⟩, hpr⟩
        have hmem : u.id ∈ mongoFollowers st userId :=
          (mem_mongoFollowers st userId u.id).2 ⟨d, hd, hfd, hfr⟩
        rw [hemp] at hmem
        simp at hmem
    · rw [followersOp]
      simp only [hemp, Bool.false_eq_true, if_false, List.mem_map, List.mem_filter,
        decide_eq_true_eq]
      constructor
      · rintro ⟨u, ⟨hu, humem⟩, hpr⟩
        exact ⟨u, hu, (mem_mongoFollowers st userId u.id).1 humem, hpr.symm⟩
      · rintro ⟨u, hu, hex, hpr⟩
        exact ⟨u, ⟨hu, (mem_mongoFollowers st userId u.id).2 hex⟩, hpr.symm⟩
  · intro pr
    by_cases hemp : (mongoFollowing st userId).isEmpty
    · rw [List.isEmpty_iff] at hemp
      constructor
      · intro hpr
        rw [followingOp] at hpr
        simp [hemp] at hpr
      · rintro ⟨u, hu, ⟨d, hd, hfd, hfr⟩, hpr⟩
        have hmem : u.id ∈ mongoFollowing st userId :=
          (mem_mongoFollowing st userId u.id).2 ⟨d, hd, hfd, hfr⟩
        rw [hemp] at hmem
        simp at hmem
    · rw [followingOp]
      simp only [hemp, Bool.false_eq_true, if_false, List.mem_map, List.mem_filter,
        decide_eq_true_eq]
      constructor
      · rintro ⟨u, ⟨hu, humem⟩, hpr⟩
        exact ⟨u, hu, (mem_mongoFollowing st userId u.id).1 humem, hpr.symm⟩
      · rintro ⟨u, hu, hex, hpr⟩
        exact ⟨u, ⟨hu, (mem_mongoFollowing st userId u.id).2 hex⟩, hpr.symm⟩

/-! ## Claim C7: enrichment drops unresolvable refs, keeps input order -/

theorem filterMap_eq_filter_map_getD {α β : Type} (f : α → Option β) (d : β)
    (l : List α) :
    l.filterMap f = (l.filter (fun x => (f x).isSome)).map (fun x => (f x).getD d) := by
  induction l with
  | nil => rfl
  | cons x rest ih =>
    cases hfx : f x with
    | none => simp [List.filterMap_cons, List.filter_cons, hfx, ih]
    | some b => simp [List.filterMap_cons, List.filter_cons, hfx, ih]

/-- Claim C7: a reference resolves exactly when its post is still in the
post store; enrichment drops the unresolvable references and maps the
surviving ones in exactly the input order (the deterministic join the code
obtains from `Promise.all`, whose results are positional regardless of
completion order). -/
theorem claim_C7 (st : St) (refs : List FeedRef) :
    (∀ r, (enrichOne st r).isSome = (reelsFind st r.reelId).isSome)
    ∧ enrich st refs
        = (refs.filter (fun r => (reelsFind st r.reelId).isSome)).map (enrichResolved st)
    ∧ (enrich st refs).map (·.id)
        = (refs.filter (fun r => (reelsFind st r.reelId).isSome)).map (·.reelId) := by
  have hsome : ∀ r, (enrichOne st r).isSome = (reelsFind st r.reelId).isSome := by
    intro r
    unfold enrichOne
    cases reelsFind st r.reelId <;> simp
  have heq : enrich st refs
      = (refs.filter (fun r => (reelsFind st r.reelId).isSome)).map (enrichResolved st) := by
    unfold enrich
    rw [filterMap_eq_filter_map_getD (enrichOne st) default refs]
    rw [List.filter_congr (fun x _ => hsome x)]
    rfl
  refine ⟨hsome, heq, ?_⟩
  rw [heq, List.map_map]
  apply List.map_congr_left
  intro r hr
  rw [List.mem_filter] at hr
  have hres := hr.2
  rw [← hsome r] at hres
  simp only [Function.comp]
  unfold enrichResolved
  unfold enrichOne at hres ⊢
  cases hfind : reelsFind st r.reelId with
  | none => rw [hfind] at hres; simp at hres
  | some reel => rfl

/-! ## Claim C8: suggestion fallback aggregation -/

/-- Lookup of a per-target count, 0 when absent. -/
def lookupCount (l : List (String × Nat)) (t : String) : Nat :=
  ((l.find? (fun kv => decide (kv.1 = t))).map (·.2)).getD 0

/-- Key uniqueness of a JS-object-as-association-list. -/
def keysNodup (l : List (String × Nat)) : Prop := (l.map (·.1)).Nodup

theorem bump_lookup_self (l : List (String × Nat)) (k : String) :
    lookupCount (bump l k) k = lookupCount l k + 1 := by
  induction l with
  | nil => simp [bump, lookupCount]
  | cons kv rest ih =>
    by_cases h : kv.1 = k
    · simp [bump, h, lookupCount, List.find?_cons]
    · simpa [bump, h, lookupCount, List.find?_cons] using ih

theorem bump_lookup_other (l : List (String × Nat)) (k t : String) (h : t ≠ k) :
    lookupCount (bump l k) t = lookupCount l t := by
  have hkt : ¬ k = t := fun hh => h hh.symm
  induction l with
  | nil => simp [bump, lookupCount, hkt]
  | cons kv rest ih =>
    by_cases hk : kv.1 = k
    · simp [bump, hk, lookupCount, List.find?_cons, hkt]
    · by_cases ht : kv.1 = t
      · simp [bump, hk, ht, h, hkt, lookupCount, List.find?_cons]
      · simpa [bump, hk, ht, lookupCount, List.find?_cons] using ih

theorem mem_keys_bump (l : List (String × Nat)) (k t : String)
    (h : t ∈ (bump l k).map (·.1)) : t ∈ l.map (·.1) ∨ t = k := by
  induction l with
  | nil => simpa [bump] using h
  | cons kv rest ih =>
    by_cases hk : kv.1 = k
    · refine Or.inl ?_
      have h2 : t = kv.1 ∨ t ∈ rest.map (·.1) := by simpa [bump, hk] using h
      simpa using h2
    · have h2 : t = kv.1 ∨ t ∈ (bump rest k).map (·.1) := by simpa [bump, hk] using h
      rcases h2 with h1 | h2
      · exact Or.inl (by simp [h1])
      · rcases ih h2 with h3 | h4
        · refine Or.inl ?_
          simp only [List.map_cons, List.mem_cons]
          exact Or.inr h3
        · exact Or.inr h4

theorem keysNodup_bump (l : List (String × Nat)) (k : String) (h : keysNodup l) :
    keysNodup (bump l k) := by
  induction l with
  | nil => simp [bump, keysNodup]
  | cons kv rest ih =>
    unfold keysNodup at h ⊢
    rw [List.map_cons, List.nodup_cons] at h
    by_cases hk : kv.1 = k
    · simp only [bump, hk, if_true]
      rw [List.map_cons, List.nodup_cons]
      exact ⟨by simpa [hk] using h.1, h.2⟩
    · simp only [bump, hk, if_false]
      rw [List.map_cons, List.nodup_cons]
      refine ⟨?_, ih h.2⟩
      intro hmem
      rcases mem_keys_bump rest k kv.1 hmem with h1 | h2
      · exact h.1 h1
      · exact hk h2

theorem bump_fst_pred (l : List (String × Nat)) (k : String) (P : String → Prop)
    (hl : ∀ tc ∈ l, P tc.1) (hk : P k) : ∀ tc ∈ bump l k, P tc.1 := by
  induction l with
  | nil => simpa [bump] using hk
  | cons kv rest ih =>
    by_cases hkv : kv.1 = k
    · intro tc htc
      have h2 : tc = (kv.1, kv.2 + 1) ∨ tc ∈ rest := by
        simpa [bump, hkv] using htc
      rcases h2 with h1 | h2
      · rw [h1]; exact hl kv (by simp)
      · exact hl tc (by simp [h2])
    · intro tc htc
      have h2 : tc = kv ∨ tc ∈ bump rest k := by
        simpa [bump, hkv] using htc
      rcases h2 with h1 | h2
      · rw [h1]; exact hl kv (by simp)
      · exact ih (fun x hx => hl x (by simp [hx])) tc h2

theorem lookup_of_mem (l : List (String × Nat)) (tc : String × Nat)
    (hnd : keysNodup l) (hmem : tc ∈ l) : lookupCount l tc.1 = tc.2 := by
  induction l with
  | nil => simp at hmem
  | cons kv rest ih =>
    unfold keysNodup at hnd
    rw [List.map_cons, List.nodup_cons] at hnd
    rcases List.mem_cons.1 hmem with h1 | h2
    · rw [h1]
      simp [lookupCount, List.find?_cons]
    · have hne : kv.1 ≠ tc.1 := by
        intro hh
        exact hnd.1 (hh ▸ List.mem_map.2 ⟨tc, h2, rfl⟩)
      have := ih hnd.2 h2
      simpa [lookupCount, List.find?_cons, hne] using this

theorem suggestCounts_fold (userId : String) (fids : List String)
    (edges : List FollowDoc) (acc : List (String × Nat))
    (hnd : keysNodup acc)
    (helig : ∀ tc ∈ acc, tc.1 ≠ userId ∧ tc.1 ∉ fids) :
    keysNodup (edges.foldl (fun acc f =>
        if f.followedId ≠ userId ∧ f.followedId ∉ fids then bump acc f.followedId
        else acc) acc)
    ∧ (∀ tc ∈ edges.foldl (fun acc f =>
        if f.followedId ≠ userId ∧ f.followedId ∉ fids then bump acc f.followedId
        else acc) acc, tc.1 ≠ userId ∧ tc.1 ∉ fids)
    ∧ (∀ t, t ≠ userId → t ∉ fids →
        lookupCount (edges.foldl (fun acc f =>
          if f.followedId ≠ userId ∧ f.followedId ∉ fids then bump acc f.followedId
          else acc) acc) t
        = lookupCount acc t + edges.countP (fun f => decide (f.followedId = t))) := by
  induction edges generalizing acc with
  | nil =>
    refine ⟨hnd, helig, ?_⟩
    intro t _ _
    simp
  | cons e rest ih =>
    rw [List.foldl_cons]
    by_cases he : e.followedId ≠ userId ∧ e.followedId ∉ fids
    · rw [if_pos he]
      have hnd' := keysNodup_bump acc e.followedId hnd
      have helig' := bump_fst_pred acc e.followedId
        (fun t => t ≠ userId ∧ t ∉ fids) helig he
      obtain ⟨h1, h2, h3⟩ := ih (bump acc e.followedId) hnd' helig'
      refine ⟨h1, h2, ?_⟩
      intro t ht1 ht2
      rw [h3 t ht1 ht2]
      by_cases hteq : t = e.followedId
      · rw [hteq, bump_lookup_self]
        rw [List.countP_cons]
        simp [hteq]
        omega
      · rw [bump_lookup_other acc e.followedId t hteq]
        rw [List.countP_cons]
        have : ¬ (e.followedId = t) := fun hh => hteq hh.symm
        simp [this]
    · rw [if_neg he]
      obtain ⟨h1, h2, h3⟩ := ih acc hnd helig
      refine ⟨h1, h2, ?_⟩
      intro t ht1 ht2
      rw [h3 t ht1 ht2]
      rw [List.countP_cons]
      have hne : ¬ (e.followedId = t) := by
        intro hh
        rw [hh] at he
        exact he ⟨ht1, ht2⟩
      simp [hne]

/-- Claim C8: with the accelerated graph backend unavailable, suggest is the
durable-replica aggregation — every returned pair names a target that is
neither the caller nor already followed and carries exactly its occurrence
count among the followed users' outgoing edges, the list is ranked by count
descending, and it is truncated to `limit`. -/
theorem claim_C8 (st : St) (userId : String) (limit : Nat)
    (hconn : st.neo4jConnected = false) :
    suggestOp st userId limit = suggestMongo st userId limit
    ∧ (∀ tc ∈ suggestMongo st userId limit,
        tc.1 ≠ userId ∧ tc.1 ∉ mongoFollowing st userId
        ∧ tc.2 = (st.follows.filter
            (fun f => decide (f.followerId ∈ mongoFollowing st userId))).countP
            (fun f => decide (f.followedId = tc.1)))
    ∧ (suggestMongo st userId limit).Pairwise sugGe
    ∧ (suggestMongo st userId limit).length ≤ limit := by
  have hop : suggestOp st userId limit = suggestMongo st userId limit := by
    unfold suggestOp
    simp [hconn]
  refine ⟨hop, ?_, ?_, ?_⟩
  · intro tc htc
    by_cases hemp : (mongoFollowing st userId).isEmpty
    · unfold suggestMongo at htc
      simp [hemp] at htc
    · unfold suggestMongo at htc
      simp only [hemp, Bool.false_eq_true, if_false] at htc
      have htc2 : tc ∈ List.insertionSort sugGe
          (suggestCounts (st.follows.filter
            (fun f => decide (f.followerId ∈ mongoFollowing st userId)))
            userId (mongoFollowing st userId)) :=
        List.mem_of_mem_take htc
      rw [List.mem_insertionSort] at htc2
      obtain ⟨hnd, helig, hcount⟩ := suggestCounts_fold userId
        (mongoFollowing st userId)
        (st.follows.filter (fun f => decide (f.followerId ∈ mongoFollowing st userId)))
        [] (by simp [keysNodup]) (by simp)
      have he := helig tc (by exact htc2)
      refine ⟨he.1, he.2, ?_⟩
      have hl := lookup_of_mem _ tc hnd (by exact htc2)
      have hc := hcount tc.1 he.1 he.2
      rw [hl] at hc
      simpa [lookupCount] using hc
  · by_cases hemp : (mongoFollowing st userId).isEmpty
    · unfold suggestMongo
      simp [hemp]
    · unfold suggestMongo
      simp only [hemp, Bool.false_eq_true, if_false]
      exact ((List.sorted_insertionSort sugGe _).sublist (List.take_sublist _ _))
  · by_cases hemp : (mongoFollowing st userId).isEmpty
    · unfold suggestMongo
      simp [hemp]
    · unfold suggestMongo
      simp only [hemp, Bool.false_eq_true, if_false]
      exact List.length_take_le _ _

/-- Concrete state for C8: the backend is down; u1 follows u2 and u2
follows u3. -/
def stC8 : St :=
  { st0 with follows := [⟨"u1", "u2"⟩, ⟨"u2", "u3"⟩] }

/-- Witness for C8 at a concrete input. -/
theorem claim_C8_witness :
    suggestOp stC8 "u1" 10 = suggestMongo stC8 "u1" 10
    ∧ (suggestMongo stC8 "u1" 10).length ≤ 10 :=
  ⟨(claim_C8 stC8 "u1" 10 rfl).1, (claim_C8 stC8 "u1" 10 rfl).2.2.2⟩

/-! ## Claim C3: fan-out writes exactly one entry per follower -/

theorem fanOut_eq (fl : List String) (st : St) (rid : Nat) (a : String) (now : Nat) :
    fanOut st fl rid a now
      = { st with timeline :=
            fl.foldl (fun t f => timelineInsert ⟨f, rid, a, now⟩ t) st.timeline } := by
  induction fl generalizing st with
  | nil => rfl
  | cons f rest ih =>
    show fanOut { st with timeline := timelineInsert ⟨f, rid, a, now⟩ st.timeline } rest rid a now = _
    rw [ih]
    rfl

theorem count_timelineInsert (tl : List TimelineRow) (row : TimelineRow) (u : String)
    (rid : Nat) (hrow : row.reel_id = rid)
    (hshape : ∀ r ∈ tl, r.reel_id = rid →
      r.created_at = row.created_at ∧ r.author_id = row.author_id) :
    ((timelineInsert row tl).filter
        (fun r => decide (r.user_id = u) && decide (r.reel_id = rid))).length
      = if u = row.user_id then 1
        else (tl.filter (fun r => decide (r.user_id = u) && decide (r.reel_id = rid))).length := by
  unfold timelineInsert
  rw [List.filter_append, List.length_append, List.filter_filter]
  by_cases hu : u = row.user_id
  · have hnil : tl.filter (fun r =>
        (decide (r.user_id = u) && decide (r.reel_id = rid))
          && ! decide (timelineKey r = timelineKey row)) = [] := by
      rw [List.filter_eq_nil_iff]
      intro r hr
      by_cases hp : r.user_id = u ∧ r.reel_id = rid
      · have hsh := hshape r hr hp.2
        have hkey : timelineKey r = timelineKey row := by
          unfold timelineKey
          rw [hp.1, hu, hsh.1, hp.2, hrow]
        simp [hkey]
      · rw [not_and_or] at hp
        rcases hp with hp | hp <;> simp [hp]
    rw [hnil]
    simp [hu, hrow]
  · have hcong : tl.filter (fun r =>
        (decide (r.user_id = u) && decide (r.reel_id = rid))
          && ! decide (timelineKey r = timelineKey row))
        = tl.filter (fun r => decide (r.user_id = u) && decide (r.reel_id = rid)) := by
      apply List.filter_congr
      intro r hr
      by_cases hp : r.user_id = u
      · have hkey : ¬ timelineKey r = timelineKey row := by
          intro hk
          apply hu
          have h1 : r.user_id = row.user_id := congrArg Prod.fst hk
          rw [← hp]
          exact h1
        simp [hp, hkey]
      · simp [hp]
    rw [hcong]
    have hne : ¬ (row.user_id = u) := fun hh => hu hh.symm
    simp [hne, hu]

theorem fanChar (fl : List String) (tl : List TimelineRow) (rid : Nat) (a : String)
    (now : Nat)
    (hshape : ∀ r ∈ tl, r.reel_id = rid → r.created_at = now ∧ r.author_id = a) :
    (∀ r ∈ fl.foldl (fun t f => timelineInsert ⟨f, rid, a, now⟩ t) tl,
        r.reel_id = rid → r.created_at = now ∧ r.author_id = a)
    ∧ ∀ u, ((fl.foldl (fun t f => timelineInsert ⟨f, rid, a, now⟩ t) tl).filter
          (fun r => decide (r.user_id = u) && decide (r.reel_id = rid))).length
        = if u ∈ fl then 1
          else (tl.filter (fun r => decide (r.user_id = u) && decide (r.reel_id = rid))).length := by
  induction fl generalizing tl with
  | nil =>
    refine ⟨hshape, ?_⟩
    intro u
    simp
  | cons f rest ih =>
    rw [List.foldl_cons]
    have hshape' : ∀ r ∈ timelineInsert ⟨f, rid, a, now⟩ tl,
        r.reel_id = rid → r.created_at = now ∧ r.author_id = a := by
      intro r hr hrid
      unfold timelineInsert at hr
      rcases List.mem_append.1 hr with hr1 | hr2
      · exact hshape r (List.mem_filter.1 hr1).1 hrid
      · have : r = ⟨f, rid, a, now⟩ := by simpa using hr2
        rw [this]
        exact ⟨rfl, rfl⟩
    obtain ⟨ihshape, ihcount⟩ := ih (timelineInsert ⟨f, rid, a, now⟩ tl) hshape'
    refine ⟨ihshape, ?_⟩
    intro u
    rw [ihcount u]
    have hstep := count_timelineInsert tl ⟨f, rid, a, now⟩ u rid rfl
      (by intro r hr hrid; exact hshape r hr hrid)
    have hproj : (TimelineRow.mk f rid a now).user_id = f := rfl
    simp only [hproj] at hstep
    by_cases hmem : u ∈ rest
    · rw [if_pos hmem, if_pos (List.mem_cons.2 (Or.inr hmem))]
    · by_cases huf : u = f
      · rw [if_neg hmem, if_pos (List.mem_cons.2 (Or.inl huf)), hstep, if_pos huf]
      · have hnotin : u ∉ f :: rest := by
          rw [List.mem_cons]
          rintro (h1 | h2)
          · exact huf h1
          · exact hmem h2
        rw [if_neg hmem, if_neg hnotin, hstep, if_neg huf]

/-- Claim C3: with valid input and a fresh reel id, createPost persists the
post, appends it to the author's per-author index, initialises the counter
to zero, and leaves exactly one timeline entry bearing the new reel id in
each resolved follower's partition and none anywhere else. -/
theorem claim_C3 (st : St) (userId caption mediaUrl : String) (reelId now : Nat)
    (hu : userId ≠ "") (hm : mediaUrl ≠ "")
    (hfresh : ∀ r ∈ st.timeline, r.reel_id ≠ reelId) :
    (createPost st userId caption mediaUrl reelId now).1 = Except.ok reelId
    ∧ reelsFind (createPost st userId caption mediaUrl reelId now).2 reelId
        = some ⟨reelId, userId, caption, mediaUrl, now⟩
    ∧ (⟨userId, reelId, now⟩ : UserReelRow)
        ∈ (createPost st userId caption mediaUrl reelId now).2.user_reels
    ∧ getCountInt (createPost st userId caption mediaUrl reelId now).2 reelId = 0
    ∧ ∀ u, (((createPost st userId caption mediaUrl reelId now).2.timeline).filter
          (fun r => decide (r.user_id = u) && decide (r.reel_id = reelId))).length
        = if u ∈ followersOfAuthor st userId then 1 else 0 := by
  have hval : ¬ (userId = "" ∨ mediaUrl = "") := by
    rintro (h | h)
    · exact hu h
    · exact hm h
  have hstep : createPost st userId caption mediaUrl reelId now
      = (Except.ok reelId,
        { st with
          reels := reelsInsert ⟨reelId, userId, caption, mediaUrl, now⟩ st.reels
          user_reels := userReelsInsert ⟨userId, reelId, now⟩ st.user_reels
          timeline := (followersOfAuthor st userId).foldl
            (fun t f => timelineInsert ⟨f, reelId, userId, now⟩ t) st.timeline
          likeCounts := setCount reelId 0 st.likeCounts }) := by
    unfold createPost
    rw [if_neg hval]
    dsimp only
    rw [fanOut_eq]
    rfl
  rw [hstep]
  refine ⟨rfl, ?_, ?_, ?_, ?_⟩
  · unfold reelsFind reelsInsert
    simp only [List.find?_append]
    have hnone : (st.reels.filter
        (fun r => ! decide (r.reel_id = reelId))).find?
        (fun r => decide (r.reel_id = reelId)) = none := by
      rw [List.find?_eq_none]
      intro x hx
      have := (List.mem_filter.1 hx).2
      simpa using this
    rw [hnone]
    simp [List.find?_cons]
  · unfold userReelsInsert
    simp
  · simp only [getCountInt]
    exact getCountVal_setCount_self _ _ _
  · intro u
    have hshape : ∀ r ∈ st.timeline, r.reel_id = reelId →
        r.created_at = now ∧ r.author_id = userId := by
      intro r hr hrid
      exact absurd hrid (hfresh r hr)
    obtain ⟨_, hcount⟩ := fanChar (followersOfAuthor st userId) st.timeline reelId
      userId now hshape
    rw [hcount u]
    by_cases hmem : u ∈ followersOfAuthor st userId
    · simp [hmem]
    · simp only [hmem, if_false]
      rw [List.filter_eq_nil_iff.2 ?_]
      · rfl
      · intro r hr
        have := hfresh r hr
        simp [this]

/-- Concrete state for C3: the author has two MongoDB followers, no
accelerated backend. -/
def stC3 : St :=
  { st0 with follows := [⟨"f1", "au"⟩, ⟨"f2", "au"⟩] }

/-- Witness for C3 at a concrete input. -/
theorem claim_C3_witness :
    (createPost stC3 "au" "cap" "m.jpg" 7 5).1 = Except.ok 7
    ∧ (((createPost stC3 "au" "cap" "m.jpg" 7 5).2.timeline).filter
          (fun r => decide (r.user_id = "f1") && decide (r.reel_id = 7))).length
        = if "f1" ∈ followersOfAuthor stC3 "au" then 1 else 0 := by
  have h := claim_C3 stC3 "au" "cap" "m.jpg" 7 5 (by decide) (by decide) (by decide)
  exact ⟨h.1, h.2.2.2.2 "f1"⟩

/-! ## Read-repair infrastructure -/

/-- The inner merge loop of read-repair on the timeline table: insert one
followed user's index entries into the owner's partition. -/
def innerTL (rows : List UserReelRow) (owner fid : String)
    (tl : List TimelineRow) : List TimelineRow :=
  rows.foldl (fun t row => timelineInsert ⟨owner, row.reel_id, fid, row.created_at⟩ t) tl

/-- The read-repair merge viewed as a pure operation on the timeline table. -/
def repairTL (ur : List UserReelRow) (owner : String) (ids : List String)
    (tl : List TimelineRow) : List TimelineRow :=
  ids.foldl (fun t fid => innerTL (scanUserReels ur fid 20) owner fid t) tl

theorem innerFold_eq (rows : List UserReelRow) (owner fid : String) (acc : St) :
    rows.foldl (fun acc2 row =>
      { acc2 with timeline :=
          timelineInsert ⟨owner, row.reel_id, fid, row.created_at⟩ acc2.timeline }) acc
    = { acc with timeline := innerTL rows owner fid acc.timeline } := by
  induction rows generalizing acc with
  | nil => rfl
  | cons r rest ih =>
    rw [List.foldl_cons]
    rw [ih]
    rfl

theorem repairMerge_eq (ids : List String) (st : St) (owner : String) :
    repairMerge st owner ids
      = { st with timeline := repairTL st.user_reels owner ids st.timeline } := by
  induction ids generalizing st with
  | nil => rfl
  | cons fid rest ih =>
    show repairMerge ((userReelsScan st fid 20).foldl _ st) owner rest = _
    rw [innerFold_eq, ih]
    rfl

/-- Upserts preserve key uniqueness of the timeline table. -/
theorem timelineWF_insert (row : TimelineRow) (tl : List TimelineRow)
    (h : TimelineWF tl) : TimelineWF (timelineInsert row tl) := by
  unfold TimelineWF timelineInsert
  rw [List.map_append, List.nodup_append]
  refine ⟨?_, List.nodup_singleton _, ?_⟩
  · exact h.sublist ((List.filter_sublist tl).map timelineKey)
  · intro k hk
    rw [List.mem_map] at hk
    obtain ⟨r, hr, hkey⟩ := hk
    have hne := (List.mem_filter.1 hr).2
    simp only [Bool.not_eq_true', decide_eq_false_iff_not] at hne
    simp only [List.map_cons, List.map_nil, List.mem_singleton]
    intro hcontra
    exact hne (by rw [← hcontra, hkey])

theorem timelineWF_innerTL (rows : List UserReelRow) (owner fid : String)
    (tl : List TimelineRow) (h : TimelineWF tl) :
    TimelineWF (innerTL rows owner fid tl) := by
  induction rows generalizing tl with
  | nil => exact h
  | cons r rest ih =>
    exact ih _ (timelineWF_insert _ tl h)

theorem timelineWF_repairTL (ur : List UserReelRow) (owner : String)
    (ids : List String) (tl : List TimelineRow) (h : TimelineWF tl) :
    TimelineWF (repairTL ur owner ids tl) := by
  induction ids generalizing tl with
  | nil => exact h
  | cons fid rest ih =>
    exact ih _ (timelineWF_innerTL (scanUserReels ur fid 20) owner fid tl h)

theorem mem_timelineInsert (r row : TimelineRow) (tl : List TimelineRow) :
    r ∈ timelineInsert row tl
      ↔ (r ∈ tl ∧ timelineKey r ≠ timelineKey row) ∨ r = row := by
  unfold timelineInsert
  rw [List.mem_append, List.mem_filter, List.mem_singleton]
  simp only [Bool.not_eq_true', decide_eq_false_iff_not]

/-- Presence of a primary key in the owner's partition. -/
def hasOwnerKey (tl : List TimelineRow) (owner : String) (ts rid : Nat) : Prop :=
  ∃ r ∈ tl, r.user_id = owner ∧ r.created_at = ts ∧ r.reel_id = rid

theorem hasOwnerKey_insert (tl : List TimelineRow) (row : TimelineRow)
    (owner : String) (ts rid : Nat) (h : hasOwnerKey tl owner ts rid) :
    hasOwnerKey (timelineInsert row tl) owner ts rid := by
  obtain ⟨r, hr, h1, h2, h3⟩ := h
  by_cases hk : timelineKey r = timelineKey row
  · obtain ⟨hu, hc, hrid⟩ : r.user_id = row.user_id
        ∧ r.created_at = row.created_at ∧ r.reel_id = row.reel_id := by
      simpa [timelineKey, Prod.ext_iff] using hk
    exact ⟨row, (mem_timelineInsert row row tl).2 (Or.inr rfl),
      by rw [← hu, h1], by rw [← hc, h2], by rw [← hrid, h3]⟩
  · exact ⟨r, (mem_timelineInsert r row tl).2 (Or.inl ⟨hr, hk⟩), h1, h2, h3⟩

theorem hasOwnerKey_innerTL (rows : List UserReelRow) (owner fid : String)
    (tl : List TimelineRow) (ts rid : Nat) (h : hasOwnerKey tl owner ts rid) :
    hasOwnerKey (innerTL rows owner fid tl) owner ts rid := by
  induction rows generalizing tl with
  | nil => exact h
  | cons r rest ih =>
    exact ih _ (hasOwnerKey_insert tl _ owner ts rid h)

theorem hasOwnerKey_repairTL (ur : List UserReelRow) (owner : String)
    (ids : List String) (tl : List TimelineRow) (ts rid : Nat)
    (h : hasOwnerKey tl owner ts rid) :
    hasOwnerKey (repairTL ur owner ids tl) owner ts rid := by
  induction ids generalizing tl with
  | nil => exact h
  | cons fid rest ih =>
    exact ih _ (hasOwnerKey_innerTL (scanUserReels ur fid 20) owner fid tl ts rid h)

theorem inner_key_present (rows : List UserReelRow) (owner fid : String)
    (tl : List TimelineRow) :
    ∀ urow ∈ rows, hasOwnerKey (innerTL rows owner fid tl)
      owner urow.created_at urow.reel_id := by
  induction rows generalizing tl with
  | nil => simp
  | cons r rest ih =>
    intro urow hurow
    show hasOwnerKey (innerTL rest owner fid
      (timelineInsert ⟨owner, r.reel_id, fid, r.created_at⟩ tl)) owner _ _
    rcases List.mem_cons.1 hurow with h1 | h2
    · apply hasOwnerKey_innerTL
      refine ⟨⟨owner, r.reel_id, fid, r.created_at⟩,
        (mem_timelineInsert _ _ tl).2 (Or.inr rfl), rfl, ?_, ?_⟩
      · rw [h1]
      · rw [h1]
    · exact ih _ urow h2

theorem repairTL_key_present (ur : List UserReelRow) (owner : String)
    (ids : List String) (tl : List TimelineRow) :
    ∀ fid ∈ ids, ∀ urow ∈ scanUserReels ur fid 20,
      hasOwnerKey (repairTL ur owner ids tl) owner urow.created_at urow.reel_id := by
  induction ids generalizing tl with
  | nil => simp
  | cons f rest ih =>
    intro fid hfid urow hurow
    show hasOwnerKey (repairTL ur owner rest
      (innerTL (scanUserReels ur f 20) owner f tl)) owner _ _
    rcases List.mem_cons.1 hfid with h1 | h2
    · apply hasOwnerKey_repairTL
      rw [h1] at hurow
      exact inner_key_present (scanUserReels ur f 20) owner f tl urow hurow
    · exact ih _ fid h2 urow hurow

theorem inner_owner_author (rows : List UserReelRow) (owner fid : String)
    (sup : List String) (hfid : fid ∈ sup) (tl : List TimelineRow)
    (hinv : ∀ r ∈ tl, r.user_id = owner → r.author_id ∈ sup) :
    ∀ r ∈ innerTL rows owner fid tl, r.user_id = owner → r.author_id ∈ sup := by
  induction rows generalizing tl with
  | nil => exact hinv
  | cons urow rest ih =>
    apply ih
    intro r hr hro
    rcases (mem_timelineInsert r _ tl).1 hr with ⟨hmem, _⟩ | heq
    · exact hinv r hmem hro
    · rw [heq]
      exact hfid

theorem repairTL_owner_author (ur : List UserReelRow) (owner : String)
    (ids sup : List String) (hsub : ∀ i ∈ ids, i ∈ sup) (tl : List TimelineRow)
    (hinv : ∀ r ∈ tl, r.user_id = owner → r.author_id ∈ sup) :
    ∀ r ∈ repairTL ur owner ids tl, r.user_id = owner → r.author_id ∈ sup := by
  induction ids generalizing tl with
  | nil => exact hinv
  | cons fid rest ih =>
    exact ih (fun i hi => hsub i (List.mem_cons.2 (Or.inr hi))) _
      (inner_owner_author (scanUserReels ur fid 20) owner fid sup
        (hsub fid (List.mem_cons.2 (Or.inl rfl))) tl hinv)

/-! ## Scan ordering lemmas -/

theorem timelineScan_sorted (st : St) (owner : String) (limit : Nat)
    (h : TimelineWF st.timeline) :
    (timelineScan st owner limit).Pairwise tlLt := by
  unfold timelineScan
  apply List.Pairwise.sublist (List.take_sublist _ _)
  have hsorted : List.Pairwise tlLe (List.insertionSort tlLe
      (st.timeline.filter (fun r => decide (r.user_id = owner)))) :=
    List.sorted_insertionSort tlLe _
  have hnd : ((List.insertionSort tlLe
      (st.timeline.filter (fun r => decide (r.user_id = owner)))).map timelineKey).Nodup := by
    have hperm := List.perm_insertionSort tlLe
      (st.timeline.filter (fun r => decide (r.user_id = owner)))
    have hbase : ((st.timeline.filter (fun r => decide (r.user_id = owner))).map
        timelineKey).Nodup :=
      h.sublist ((List.filter_sublist _).map _)
    exact ((hperm.map timelineKey).nodup_iff).2 hbase
  have hkey : List.Pairwise (fun a b : TimelineRow => timelineKey a ≠ timelineKey b)
      (List.insertionSort tlLe (st.timeline.filter (fun r => decide (r.user_id = owner)))) :=
    List.pairwise_map.1 hnd
  apply List.Pairwise.imp_of_mem ?_ (hsorted.and hkey)
  intro a b ha hb hab
  have hua : a.user_id = owner := by
    have hm := (List.mem_filter.1 ((List.mem_insertionSort tlLe).1 ha)).2
    simpa using hm
  have hub : b.user_id = owner := by
    have hm := (List.mem_filter.1 ((List.mem_insertionSort tlLe).1 hb)).2
    simpa using hm
  obtain ⟨hle, hne⟩ := hab
  have hkne : a.created_at ≠ b.created_at ∨ a.reel_id ≠ b.reel_id := by
    by_contra hcon
    push_neg at hcon
    apply hne
    unfold timelineKey
    rw [hua, hub, hcon.1, hcon.2]
  unfold tlLe at hle
  unfold tlLt
  omega

theorem timelineScan_empty_iff (st : St) (owner : String) (limit : Nat)
    (hl : 1 ≤ limit) :
    timelineScan st owner limit = []
      ↔ st.timeline.filter (fun r => decide (r.user_id = owner)) = [] := by
  unfold timelineScan
  constructor
  · intro h
    rcases List.take_eq_nil_iff.1 h with h0 | hs
    · omega
    · have hlen := congrArg List.length hs
      rw [List.length_insertionSort] at hlen
      exact List.length_eq_zero.1 hlen
  · intro h
    rw [h]
    simp

theorem mem_timelineScan (st : St) (owner : String) (limit : Nat)
    (r : TimelineRow) (h : r ∈ timelineScan st owner limit) :
    r ∈ st.timeline ∧ r.user_id = owner := by
  unfold timelineScan at h
  have h2 := (List.mem_insertionSort tlLe).1 (List.mem_of_mem_take h)
  have h3 := List.mem_filter.1 h2
  exact ⟨h3.1, by simpa using h3.2⟩

/-! ## Branch equations of the feed assembler -/

theorem getFeedAssemble_nonempty (st : St) (u : String) (limit : Nat)
    (h : timelineScan st u limit ≠ []) :
    getFeedAssemble st u limit = ((timelineScan st u limit).map feedRefOfRow, st) := by
  unfold getFeedAssemble
  dsimp only
  rw [if_neg (by simpa [List.isEmpty_iff] using h)]

theorem getFeedAssemble_repair (st : St) (u : String) (limit : Nat)
    (he : timelineScan st u limit = []) (hf : mongoFollowing st u ≠ []) :
    getFeedAssemble st u limit
      = ((timelineScan (repairMerge st u (mongoFollowing st u)) u limit).map feedRefOfRow,
         repairMerge st u (mongoFollowing st u)) := by
  unfold getFeedAssemble
  dsimp only
  rw [if_pos (by rw [he]; rfl)]
  rw [if_neg (by simpa [List.isEmpty_iff] using hf)]

theorem getFeedAssemble_self (st : St) (u : String) (limit : Nat)
    (he : timelineScan st u limit = []) (hf : mongoFollowing st u = []) :
    getFeedAssemble st u limit
      = ((userReelsScan st u limit).map (fun r => ⟨r.reel_id, u, r.created_at⟩), st) := by
  unfold getFeedAssemble
  dsimp only
  rw [if_pos (by rw [he]; rfl)]
  rw [if_pos (by rw [hf]; rfl)]

/-! ## Claim C1: read path with empty-partition read-repair -/

/-- Claim C1: `getFeed` first reads the owner's partition limited to the
page size (with a positive limit the read is empty exactly when the
partition is); only an empty read triggers repair — a non-empty read is
returned with no store write; with a non-empty following set every followed
user's top-20 index entry is merged into the owner's partition and the
partition is re-read; with no follows the owner's own index is returned as a
self view; and an empty outcome is an explicit `ok` page, never an error. -/
theorem claim_C1 (st : St) (userId : String) (limit : Nat)
    (hu : userId ≠ "") (hl : 1 ≤ limit) :
    (timelineScan st userId limit = []
      ↔ st.timeline.filter (fun r => decide (r.user_id = userId)) = [])
    ∧ (timelineScan st userId limit ≠ [] →
        getFeedAssemble st userId limit
          = ((timelineScan st userId limit).map feedRefOfRow, st))
    ∧ (timelineScan st userId limit = [] → mongoFollowing st userId ≠ [] →
        getFeedAssemble st userId limit
          = ((timelineScan (repairMerge st userId (mongoFollowing st userId))
                userId limit).map feedRefOfRow,
             repairMerge st userId (mongoFollowing st userId))
        ∧ (∀ fid ∈ mongoFollowing st userId, ∀ urow ∈ userReelsScan st fid 20,
            hasOwnerKey (getFeedAssemble st userId limit).2.timeline
              userId urow.created_at urow.reel_id))
    ∧ (timelineScan st userId limit = [] → mongoFollowing st userId = [] →
        getFeedAssemble st userId limit
          = ((userReelsScan st userId limit).map
              (fun r => ⟨r.reel_id, userId, r.created_at⟩), st))
    ∧ (∃ v, (getFeedRoute st userId limit).1 = Except.ok v)
    ∧ ((getFeedAssemble st userId limit).1 = [] →
        (getFeedRoute st userId limit).1 = Except.ok []) := by
  refine ⟨timelineScan_empty_iff st userId limit hl,
    getFeedAssemble_nonempty st userId limit, ?_, getFeedAssemble_self st userId limit,
    ?_, ?_⟩
  · intro he hf
    refine ⟨getFeedAssemble_repair st userId limit he hf, ?_⟩
    intro fid hfid urow hurow
    rw [getFeedAssemble_repair st userId limit he hf]
    show hasOwnerKey (repairMerge st userId (mongoFollowing st userId)).timeline
      userId urow.created_at urow.reel_id
    rw [repairMerge_eq]
    exact repairTL_key_present st.user_reels userId (mongoFollowing st userId)
      st.timeline fid hfid urow hurow
  · unfold getFeedRoute
    rw [if_neg hu]
    dsimp only
    by_cases hres : (getFeedAssemble st userId limit).1.isEmpty
    · rw [if_pos hres]
      exact ⟨[], rfl⟩
    · rw [if_neg hres]
      exact ⟨_, rfl⟩
  · intro hnil
    unfold getFeedRoute
    rw [if_neg hu]
    dsimp only
    rw [if_pos (by rw [hnil]; rfl)]

/-! ## Claim C2: ordering invariant of partitions and the assembled feed -/

/-- Claim C2: under key uniqueness of the timeline table (which every upsert
and read-repair preserves), every partition scan is strictly descending by
`created_at` with ties broken by `reel_id` ascending; and for an owner with
an empty partition and a non-empty following set the assembled feed contains
only posts authored by followed users, in exactly that order. -/
theorem claim_C2 (st : St) (owner : String) (limit : Nat) (row : TimelineRow)
    (tl : List TimelineRow) :
    (TimelineWF tl → TimelineWF (timelineInsert row tl))
    ∧ (TimelineWF st.timeline → (timelineScan st owner limit).Pairwise tlLt)
    ∧ (TimelineWF st.timeline →
        TimelineWF ((getFeedAssemble st owner limit).2).timeline)
    ∧ (TimelineWF st.timeline → (∀ r ∈ st.timeline, r.user_id ≠ owner) →
        mongoFollowing st owner ≠ [] →
        (∀ ref ∈ (getFeedAssemble st owner limit).1,
            ref.authorId ∈ mongoFollowing st owner)
        ∧ (getFeedAssemble st owner limit).1.Pairwise refLt) := by
  refine ⟨timelineWF_insert row tl, timelineScan_sorted st owner limit, ?_, ?_⟩
  · intro hwf
    by_cases he : timelineScan st owner limit = []
    · by_cases hf : mongoFollowing st owner = []
      · rw [getFeedAssemble_self st owner limit he hf]
        exact hwf
      · rw [getFeedAssemble_repair st owner limit he hf]
        show TimelineWF (repairMerge st owner (mongoFollowing st owner)).timeline
        rw [repairMerge_eq]
        exact timelineWF_repairTL st.user_reels owner (mongoFollowing st owner)
          st.timeline hwf
    · rw [getFeedAssemble_nonempty st owner limit he]
      exact hwf
  · intro hwf hownerfree hf
    have hfiltnil : st.timeline.filter (fun r => decide (r.user_id = owner)) = [] := by
      rw [List.filter_eq_nil_iff]
      intro r hr
      simpa using hownerfree r hr
    have he : timelineScan st owner limit = [] := by
      unfold timelineScan
      rw [hfiltnil]
      simp
    rw [getFeedAssemble_repair st owner limit he hf]
    dsimp only
    have hwf2 : TimelineWF (repairMerge st owner (mongoFollowing st owner)).timeline := by
      rw [repairMerge_eq]
      exact timelineWF_repairTL st.user_reels owner (mongoFollowing st owner)
        st.timeline hwf
    constructor
    · intro ref href
      rw [List.mem_map] at href
      obtain ⟨r, hr, hrref⟩ := href
      have hmem := mem_timelineScan (repairMerge st owner (mongoFollowing st owner))
        owner limit r hr
      have hauth : r.author_id ∈ mongoFollowing st owner := by
        have hintl : r ∈ repairTL st.user_reels owner (mongoFollowing st owner)
            st.timeline := by
          have := hmem.1
          rw [repairMerge_eq] at this
          exact this
        exact repairTL_owner_author st.user_reels owner (mongoFollowing st owner)
          (mongoFollowing st owner) (fun i hi => hi) st.timeline
          (fun r2 hr2 hro2 => absurd hro2 (hownerfree r2 hr2)) r hintl hmem.2
      rw [← hrref]
      exact hauth
    · have hscan : (timelineScan (repairMerge st owner (mongoFollowing st owner))
          owner limit).Pairwise tlLt := by
        have := timelineScan_sorted (repairMerge st owner (mongoFollowing st owner))
          owner limit hwf2
        exact this
      rw [List.pairwise_map]
      apply hscan.imp
      intro a b hab
      unfold tlLt at hab
      unfold refLt feedRefOfRow
      dsimp only
      omega

/-- Concrete state for C1: u1 follows u2, u2 has one indexed reel, and u1's
partition is empty. -/
def stW1 : St := { st0 with follows := [⟨"u1", "u2"⟩], user_reels := [⟨"u2", 4, 9⟩] }

/-- Witness for C1 at a concrete input: the route answers `ok` and repair
merges u2's reel into u1's partition. -/
theorem claim_C1_witness :
    (∃ v, (getFeedRoute stW1 "u1" 10).1 = Except.ok v)
    ∧ hasOwnerKey (getFeedAssemble stW1 "u1" 10).2.timeline "u1" 9 4 := by
  have h := claim_C1 stW1 "u1" 10 (by decide) (by decide)
  refine ⟨h.2.2.2.2.1, ?_⟩
  exact (h.2.2.1 (by decide) (by decide)).2 "u2" (by decide) ⟨"u2", 4, 9⟩ (by decide)

/-- Concrete state for C2: o1 follows a1, who has two indexed reels; o1's
partition is empty. -/
def stW2 : St :=
  { st0 with follows := [⟨"o1", "a1"⟩], user_reels := [⟨"a1", 3, 7⟩, ⟨"a1", 5, 8⟩] }

/-- Witness for C2 at a concrete input. -/
theorem claim_C2_witness :
    (∀ ref ∈ (getFeedAssemble stW2 "o1" 10).1, ref.authorId ∈ mongoFollowing stW2 "o1")
    ∧ (getFeedAssemble stW2 "o1" 10).1.Pairwise refLt :=
  (claim_C2 stW2 "o1" 10 ⟨"x", 0, "y", 0⟩ []).2.2.2 (by decide) (by decide) (by decide)
